import Mathlib

/-!
Shallow embedding of the stable-bloom-filter crate: `src/buckets.rs`
(the bit-packed counter array `Buckets`) and `src/stable.rs`
(`StableBloomFilter`), together with theorems checking the crate's
natural-language specification against this embedding.

Conventions of the embedding:
* machine integers are `Nat` with explicit truncation where the source
  truncates: an `as u8` cast is `% 256`, an `as u32` cast and wrapping
  u32 arithmetic are `% 2 ^ 32` (release-mode semantics);
* `Vec<u8>` is a `List Nat`; an indexing read `self.data[i]` is
  `List.getD data i 0` and an indexed write is `List.set`.  Rust indexing
  panics out of bounds while `getD`/`set` are total, so the byte indices
  actually accessed are tracked by the separate `getBitsOk`/`setBitsOk`
  predicates and proved in bounds for the states the claims quantify over;
* the FNV hasher (`src/fnv.rs`, not present under the repository sources)
  is modelled from the spec: an injected hashing capability producing a
  64-bit digest, so every filter operation takes the digest `h` of the
  queried byte sequence as a parameter;
* `thread_rng().gen_range(0, m)` in `StableBloomFilter::decrement` is
  modelled by an explicit offset parameter `r` (the spec asks for the
  random source to be injectable), quantified over `r < m` in theorems.
-/

namespace StableBloom

/-- A read `self.data[i]` of byte `i` of the backing buffer. -/
def byteGet (data : List Nat) (i : Nat) : Nat :=
  data.getD i 0

/-- Bit `n` of the backing buffer: bit `n % 8` of byte `n / 8`. -/
def bitGet (data : List Nat) (n : Nat) : Bool :=
  Nat.testBit (byteGet data (n / 8)) (n % 8)

/-- `Buckets::get_bits` from `src/buckets.rs`.  `offset` is a `usize` bit
offset, `length` a `u8` bit count.  When the requested range crosses the
current byte boundary the read is split at the boundary into two sub-reads
recombined by shift-and-or, with `rem = 8 - byte_offset` bits read first. -/
def getBits (data : List Nat) (offset length : Nat) : Nat :=
  if 8 < offset % 8 + length then
    getBits data offset (8 - offset % 8) |||
      (getBits data (offset + (8 - offset % 8)) (length - (8 - offset % 8)) <<<
        (8 - offset % 8))
  else
    (byteGet data (offset / 8) &&& (((1 <<< length) - 1) <<< (offset % 8))) >>>
      (offset % 8)
termination_by length
decreasing_by
  · omega
  · omega

/-- `Buckets::set_bits` from `src/buckets.rs`.  `offset` is a `u32` bit
offset (so the recursive `offset + rem` is wrapping u32 addition), `bits`
a `u8` payload.  A range crossing the byte boundary is split like
`get_bits`; within one byte the affected sub-byte is first cleared with a
negated mask and then or-ed with the masked payload, each store being an
`as u8` truncation of the `u32` intermediate. -/
def setBits (data : List Nat) (offset length bits : Nat) : List Nat :=
  if 8 < offset % 8 + length then
    setBits (setBits data offset (8 - offset % 8) bits)
      ((offset + (8 - offset % 8)) % 2 ^ 32) (length - (8 - offset % 8))
      (bits >>> (8 - offset % 8))
  else
    (data.set (offset / 8)
        ((byteGet data (offset / 8) &&&
          ((((1 <<< length) - 1) <<< (offset % 8)) ^^^ (2 ^ 32 - 1))) % 256)).set
      (offset / 8)
      ((byteGet
          (data.set (offset / 8)
            ((byteGet data (offset / 8) &&&
              ((((1 <<< length) - 1) <<< (offset % 8)) ^^^ (2 ^ 32 - 1))) % 256))
          (offset / 8) |||
        ((bits &&& ((1 <<< length) - 1)) <<< (offset % 8))) % 256)
termination_by length
decreasing_by
  · omega
  · omega

/-- The byte indices read by `get_bits` are in bounds of the buffer:
`true` exactly when every `self.data[byte_index]` access of
`Buckets::get_bits` hits an index below the buffer length (a `false`
means the Rust code would panic on an out-of-bounds index). -/
def getBitsOk (data : List Nat) (offset length : Nat) : Bool :=
  if 8 < offset % 8 + length then
    getBitsOk data offset (8 - offset % 8) &&
      getBitsOk data (offset + (8 - offset % 8)) (length - (8 - offset % 8))
  else
    offset / 8 < data.length
termination_by length
decreasing_by
  · omega
  · omega

/-- The byte indices written by `set_bits` are in bounds of the buffer.
`set_bits` recurses on the buffer it just mutated, but mutation preserves
the buffer length, so checking both sub-writes against the original
buffer is equivalent. -/
def setBitsOk (data : List Nat) (offset length : Nat) : Bool :=
  if 8 < offset % 8 + length then
    setBitsOk data offset (8 - offset % 8) &&
      setBitsOk data ((offset + (8 - offset % 8)) % 2 ^ 32)
        (length - (8 - offset % 8))
  else
    offset / 8 < data.length
termination_by length
decreasing_by
  · omega
  · omega

/-- The `Buckets` struct of `src/buckets.rs`: a byte buffer holding
`count` cells of `bucket_size` bits each, `max` the largest storable
cell value. -/
structure Buckets where
  data : List Nat
  bucket_size : Nat
  max : Nat
  count : Nat
deriving Repr, DecidableEq

/-- The success path of `Buckets::new`: a zero-filled buffer of
`ceil(count * bucket_size / 8)` bytes and `max = (1u16 << bucket_size) - 1`
truncated to `u8`.  The guard rejecting `bucket_size > 8` is modelled by
`Buckets.new?`. -/
def Buckets.new (count bucket_size : Nat) : Buckets :=
  { count := count
    bucket_size := bucket_size
    data := List.replicate ((count * bucket_size + 7) / 8) 0
    max := ((1 <<< bucket_size) - 1) % 256 }

/-- `Buckets::new` including its failure branch: the source code aborts
construction (a fatal panic) when `bucket_size > 8`, modelled as `none`. -/
def Buckets.new? (count bucket_size : Nat) : Option Buckets :=
  if 8 < bucket_size then none else some (Buckets.new count bucket_size)

/-- `Buckets::get`: read cell `bucket`.  The bit offset
`bucket * bucket_size` is computed in `usize` (not truncated); the `u32`
result of `get_bits` is cast `as u8`, hence `% 256`. -/
def Buckets.get (b : Buckets) (bucket : Nat) : Nat :=
  getBits b.data (bucket * b.bucket_size) b.bucket_size % 256

/-- `Buckets::set`: clamp `value` to `max` and store it in cell `bucket`.
The bit offset handed to `set_bits` is `(bucket as u32) * u32::from(bucket_size)`,
a truncating cast followed by u32 multiplication, hence the two `% 2 ^ 32`. -/
def Buckets.set (b : Buckets) (bucket value : Nat) : Buckets :=
  { b with
    data :=
      setBits b.data (bucket % 2 ^ 32 * b.bucket_size % 2 ^ 32) b.bucket_size
        (min value b.max) }

/-- `Buckets::increment`: read cell `bucket` (usize offset), add `delta`
with u8 saturation, clamp to `max`, store (u32-truncated offset). -/
def Buckets.increment (b : Buckets) (bucket delta : Nat) : Buckets :=
  { b with
    data :=
      setBits b.data (bucket % 2 ^ 32 * b.bucket_size % 2 ^ 32) b.bucket_size
        (min (min (getBits b.data (bucket * b.bucket_size) b.bucket_size % 256 + delta) 255)
          b.max) }

/-- `Buckets::decrease`: read cell `bucket` (usize offset), subtract
`delta` with saturation at zero (Nat subtraction), store (u32-truncated
offset). -/
def Buckets.decrease (b : Buckets) (bucket delta : Nat) : Buckets :=
  { b with
    data :=
      setBits b.data (bucket % 2 ^ 32 * b.bucket_size % 2 ^ 32) b.bucket_size
        (getBits b.data (bucket * b.bucket_size) b.bucket_size % 256 - delta) }

/-- `Buckets::reset`: re-allocate the zero-filled buffer. -/
def Buckets.reset (b : Buckets) : Buckets :=
  { b with data := List.replicate ((b.count * b.bucket_size + 7) / 8) 0 }

/-- The `StableBloomFilter` struct of `src/stable.rs`.  The `hash` field
(a cloneable FNV hasher) is replaced by passing each operation the 64-bit
digest of its input, and the `index_buffer` scratch vector (length `k`,
fully overwritten by `test_and_add` before being read) is modelled by a
local list of the `k` slot indices. -/
structure StableBloomFilter where
  cells : Buckets
  m : Nat
  p : Nat
  k : Nat
  max : Nat
deriving Repr, DecidableEq

/-- `StableBloomFilter::hash_kernel`, given the 64-bit digest `h` that
`self.hash.clone()` + `write(data)` + `finish()` produces: the lower and
upper 32-bit halves (`hash as u32`, `(hash >> 32) as u32`). -/
def hashKernel (h : Nat) : Nat × Nat :=
  (h % 2 ^ 32, (h >>> 32) % 2 ^ 32)

/-- Slot `i` of the double-hashing scheme used by `test`, `add` and
`test_and_add`: `(lower as usize + upper as usize * i) % m`.  The
multiplication and addition are `usize` arithmetic, which wraps modulo
`2 ^ 64` in release builds (a debug build would abort on overflow). -/
def slotIndex (h m i : Nat) : Nat :=
  ((hashKernel h).1 + (hashKernel h).2 * i % 2 ^ 64) % 2 ^ 64 % m

/-- `Filter::test` for `StableBloomFilter`: true unless one of the `k`
addressed cells is zero (the source loop returns `false` early at the
first zero cell, which agrees with `List.all`).  Pure: the filter state
is not mutated. -/
def StableBloomFilter.test (s : StableBloomFilter) (h : Nat) : Bool :=
  (List.range s.k).all fun i => s.cells.get (slotIndex h s.m i) != 0

/-- `StableBloomFilter::decrement` with the random start offset `r`
(drawn by the source from `thread_rng().gen_range(0, m)`): decrease the
`p` cells `(r + i) % m`, `i < p`, by one each, in loop order. -/
def StableBloomFilter.decrement (s : StableBloomFilter) (r : Nat) : StableBloomFilter :=
  { s with
    cells := (List.range s.p).foldl (fun c i => c.decrease ((r + i) % s.m) 1) s.cells }

/-- `Filter::add` for `StableBloomFilter`: first `decrement()`, then set
each of the `k` slots of the digest to `self.max`. -/
def StableBloomFilter.add (s : StableBloomFilter) (h r : Nat) : StableBloomFilter :=
  let s1 := s.decrement r
  { s1 with
    cells := (List.range s1.k).foldl (fun c i => c.set (slotIndex h s1.m i) s1.max) s1.cells }

/-- `Filter::test_and_add` for `StableBloomFilter`: record the `k` slots
(the `index_buffer` writes), compute membership from the pre-mutation
cells (`member` is forced to `false` by any zero cell, which agrees with
the source's `member = false` assignment inside the loop), then
`decrement()` and set the recorded slots to `self.max`. -/
def StableBloomFilter.testAndAdd (s : StableBloomFilter) (h r : Nat) :
    Bool × StableBloomFilter :=
  let idxs := (List.range s.k).map fun i => slotIndex h s.m i
  let member :=
    (List.range s.k).foldl
      (fun mem i => if s.cells.get (slotIndex h s.m i) == 0 then false else mem) true
  let s1 := s.decrement r
  (member, { s1 with cells := idxs.foldl (fun c idx => c.set idx s1.max) s1.cells })

/-- The integer tail of `optimal_stable_p` from `src/lib.rs`: the source
derives a double-precision quantity `1.0 / denom` from `(m, k, d, fp_rate)`
and casts it to `usize`; floating point lies outside this embedding, so the
value of that cast is taken as the parameter `pRaw`, and the remaining
integer logic is translated from the source: a zero result is raised
to 1. -/
def optimalStableP (pRaw : Nat) : Nat :=
  if pRaw = 0 then 1 else pRaw

/-- `StableBloomFilter::new (m, d, fp_rate)`.  The floating-point
`optimal_k(fp_rate)` result is abstracted as the parameter `kOpt`, and
the raw `(1.0 / denom) as usize` value inside `optimal_stable_p` as
`pRaw` (see `optimalStableP`).  The integer logic mirrors the source:
`k = kOpt / 2` clamped to `m` from above, then raised to 1 if zero. -/
def StableBloomFilter.new (m d kOpt pRaw : Nat) : StableBloomFilter :=
  let k0 := kOpt / 2
  let k := if m < k0 then m else if k0 = 0 then 1 else k0
  let cells := Buckets.new m d
  { cells := cells, m := m, k := k, p := optimalStableP pRaw, max := cells.max }

/-- `StableBloomFilter::new` including the failure branch of the
`Buckets::new(m, d)` call it performs: filter construction aborts exactly
when the requested cell width `d` exceeds 8; nothing else in the
constructor can fail. -/
def StableBloomFilter.new? (m d kOpt pRaw : Nat) : Option StableBloomFilter :=
  if 8 < d then none else some (StableBloomFilter.new m d kOpt pRaw)

/-! ### Byte- and bit-level lemmas about the buffer primitives -/

theorem byteGet_set_self {data : List Nat} {i : Nat} (h : i < data.length) (v : Nat) :
    byteGet (data.set i v) i = v := by
  simp [byteGet, List.getD_eq_getElem?_getD, List.getElem?_set_self h]

theorem byteGet_set_ne {i j : Nat} (h : i ≠ j) (data : List Nat) (v : Nat) :
    byteGet (data.set i v) j = byteGet data j := by
  simp [byteGet, List.getD_eq_getElem?_getD, List.getElem?_set_ne h]

theorem byteGet_replicate (n i : Nat) : byteGet (List.replicate n 0) i = 0 := by
  simp only [byteGet, List.getD_eq_getElem?_getD, List.getElem?_replicate]
  split <;> rfl

theorem setBits_length : ∀ (length offset bits : Nat) (data : List Nat),
    (setBits data offset length bits).length = data.length := by
  intro length
  induction length using Nat.strong_induction_on with
  | _ length ih =>
    intro offset bits data
    unfold setBits
    split
    case isTrue hs =>
      rw [ih (length - (8 - offset % 8)) (by omega), ih (8 - offset % 8) (by omega)]
    case isFalse hs =>
      simp [List.length_set]

/-- Bit-level reading of `get_bits`: bit `t` of the result is bit
`offset + t` of the buffer when `t < length`, and zero beyond. -/
theorem testBit_getBits : ∀ (length offset t : Nat) (data : List Nat),
    Nat.testBit (getBits data offset length) t =
      (decide (t < length) && bitGet data (offset + t)) := by
  intro length
  induction length using Nat.strong_induction_on with
  | _ length ih =>
    intro offset t data
    unfold getBits
    split
    case isTrue hs =>
      rw [Nat.testBit_or, Nat.testBit_shiftLeft,
        ih (8 - offset % 8) (by omega) offset t data,
        ih (length - (8 - offset % 8)) (by omega) (offset + (8 - offset % 8))
          (t - (8 - offset % 8)) data]
      rcases Nat.lt_or_ge t (8 - offset % 8) with ht | ht
      · have h1 : ¬ (8 - offset % 8 ≤ t) := by omega
        have h2 : t < length := by omega
        simp [ht, h1, h2, ge_iff_le]
      · have h1 : ¬ (t < 8 - offset % 8) := by omega
        have h2 : offset + (8 - offset % 8) + (t - (8 - offset % 8)) = offset + t := by
          omega
        have h3 : (t - (8 - offset % 8) < length - (8 - offset % 8)) ↔ t < length := by
          omega
        simp [h1, ht, h2, h3, ge_iff_le]
    case isFalse hs =>
      have hmask : (1 <<< length) - 1 = 2 ^ length - 1 := by
        rw [Nat.shiftLeft_eq, one_mul]
      rw [Nat.testBit_shiftRight, Nat.testBit_and, Nat.testBit_shiftLeft, hmask,
        Nat.testBit_two_pow_sub_one]
      by_cases ht : t < length
      · have h1 : (offset + t) / 8 = offset / 8 := by omega
        have h2 : (offset + t) % 8 = offset % 8 + t := by omega
        have h3 : offset % 8 + t - offset % 8 = t := by omega
        simp [bitGet, h1, h2, h3, ht, ge_iff_le, Bool.and_comm]
      · simp [ht, Nat.sub_add_cancel]

/-- `get_bits` returns a `length`-bit value. -/
theorem getBits_lt (data : List Nat) (offset length : Nat) :
    getBits data offset length < 2 ^ length := by
  apply Nat.lt_pow_two_of_testBit
  intro i hi
  rw [testBit_getBits]
  simp [Nat.not_lt.2 hi]

/-- Two buffers agreeing on a bit window are read identically there. -/
theorem getBits_congr {d1 d2 : List Nat} {o1 o2 length : Nat}
    (h : ∀ t, t < length → bitGet d1 (o1 + t) = bitGet d2 (o2 + t)) :
    getBits d1 o1 length = getBits d2 o2 length := by
  apply Nat.eq_of_testBit_eq
  intro i
  rw [testBit_getBits, testBit_getBits]
  by_cases hi : i < length
  · rw [h i hi]
  · simp [hi]

/-- Bit-level writing of `set_bits`: inside the written window (when the
target byte is in bounds) the buffer takes the payload bits; every other
bit of the buffer is untouched.  The hypothesis keeps the wrapping u32
offset addition of the source's split recursion from wrapping. -/
theorem bitGet_setBits : ∀ (length offset bits n : Nat) (data : List Nat),
    offset + length ≤ 2 ^ 32 →
    bitGet (setBits data offset length bits) n =
      if offset ≤ n ∧ n < offset + length ∧ n / 8 < data.length
      then Nat.testBit bits (n - offset)
      else bitGet data n := by
  intro length
  induction length using Nat.strong_induction_on with
  | _ length ih =>
    intro offset bits n data hle
    unfold setBits
    split
    case isTrue hs =>
      have hmod : (offset + (8 - offset % 8)) % 2 ^ 32 = offset + (8 - offset % 8) :=
        Nat.mod_eq_of_lt (by omega)
      rw [hmod,
        ih (length - (8 - offset % 8)) (by omega) (offset + (8 - offset % 8))
          (bits >>> (8 - offset % 8)) n _ (by omega),
        setBits_length,
        ih (8 - offset % 8) (by omega) offset bits n data (by omega)]
      by_cases hA : offset + (8 - offset % 8) ≤ n ∧
          n < offset + (8 - offset % 8) + (length - (8 - offset % 8)) ∧
          n / 8 < data.length
      · rw [if_pos hA,
          if_pos (show offset ≤ n ∧ n < offset + length ∧ n / 8 < data.length by omega),
          Nat.testBit_shiftRight]
        congr 1
        omega
      · rw [if_neg hA]
        by_cases hBc : offset ≤ n ∧ n < offset + (8 - offset % 8) ∧ n / 8 < data.length
        · rw [if_pos hBc,
            if_pos (show offset ≤ n ∧ n < offset + length ∧ n / 8 < data.length by omega)]
        · rw [if_neg hBc,
            if_neg (show ¬(offset ≤ n ∧ n < offset + length ∧ n / 8 < data.length) by omega)]
    case isFalse hs =>
      have hs8 : offset % 8 + length ≤ 8 := by omega
      by_cases hB : offset / 8 < data.length
      · have hmask : (1 <<< length) - 1 = 2 ^ length - 1 := by
          rw [Nat.shiftLeft_eq, one_mul]
        rw [hmask, byteGet_set_self hB, List.set_set]
        have h256 : (256 : Nat) = 2 ^ 8 := by norm_num
        rw [h256]
        by_cases hnb : n / 8 = offset / 8
        · have hlen2 : n / 8 < data.length := by omega
          simp only [bitGet, hnb, byteGet_set_self hB]
          simp only [Nat.testBit_mod_two_pow, Nat.testBit_or, Nat.testBit_and,
            Nat.testBit_xor, Nat.testBit_shiftLeft, Nat.testBit_two_pow_sub_one]
          have e1 : n % 8 < 8 := by omega
          have e2 : n % 8 < 32 := by omega
          by_cases hw : offset ≤ n ∧ n < offset + length
          · have hc1 : offset % 8 ≤ n % 8 := by omega
            have hc2 : n % 8 - offset % 8 < length := by omega
            have hc2' : n - offset < length := by omega
            have hc3 : n % 8 - offset % 8 = n - offset := by omega
            rw [if_pos ⟨hw.1, hw.2, hB⟩]
            simp [hc1, hc2, hc2', hc3, ge_iff_le, e1, e2, Bool.xor_true]
          · rw [if_neg (fun hcond => hw ⟨hcond.1, hcond.2.1⟩)]
            rcases Nat.lt_or_ge (n % 8) (offset % 8) with hr | hr
            · have hr2 : ¬ (offset % 8 ≤ n % 8) := by omega
              simp [hr2, e1, e2, ge_iff_le, Bool.xor_true]
            · have hr2 : ¬ (n % 8 - offset % 8 < length) := by omega
              simp [hr, hr2, e1, e2, ge_iff_le, Bool.xor_true]
        · simp only [bitGet, byteGet_set_ne (fun hq => hnb hq.symm)]
          rw [if_neg (by intro hcond; exact hnb (by omega))]
      · have hnop : ∀ v, data.set (offset / 8) v = data := fun v =>
          List.set_eq_of_length_le (by omega)
        simp only [hnop]
        rw [if_neg (by intro hcond; exact hB (by omega))]

/-! ### Cell-level lemmas about `Buckets` operations -/

/-- Any cell read is a `bucket_size`-bit value. -/
theorem get_lt (b : Buckets) (i : Nat) : b.get i < 2 ^ b.bucket_size :=
  lt_of_le_of_lt (Nat.mod_le _ _) (getBits_lt b.data (i * b.bucket_size) b.bucket_size)

/-- When the cell's bit window fits below `2 ^ 32`, the u32-truncated
offset used by the mutating operations coincides with the untruncated
`usize` offset used by `get`. -/
theorem set_offset_eq {b : Buckets} {i : Nat} (h1 : 1 ≤ b.bucket_size)
    (h32 : i * b.bucket_size + b.bucket_size ≤ 2 ^ 32) :
    i % 2 ^ 32 * b.bucket_size % 2 ^ 32 = i * b.bucket_size := by
  have hmul : i ≤ i * b.bucket_size := Nat.le_mul_of_pos_right i (by omega)
  have hi : i % 2 ^ 32 = i := Nat.mod_eq_of_lt (by omega)
  rw [hi]
  exact Nat.mod_eq_of_lt (by omega)

/-- Reading back the window just written by `set_bits` returns the
written value when it fits the window and the window is inside the
buffer. -/
theorem getBits_setBits_self {data : List Nat} {offset length v : Nat}
    (hlen : offset + length ≤ 8 * data.length) (h32 : offset + length ≤ 2 ^ 32)
    (hv : v < 2 ^ length) :
    getBits (setBits data offset length v) offset length = v := by
  apply Nat.eq_of_testBit_eq
  intro t
  rw [testBit_getBits]
  by_cases ht : t < length
  · have hcond : offset ≤ offset + t ∧ offset + t < offset + length ∧
        (offset + t) / 8 < data.length := by
      refine ⟨by omega, by omega, by omega⟩
    rw [bitGet_setBits length offset v (offset + t) data h32, if_pos hcond]
    simp [ht, Nat.add_sub_cancel_left]
  · have hz : v.testBit t = false :=
      Nat.testBit_lt_two_pow
        (lt_of_lt_of_le hv (Nat.pow_le_pow_right (by omega) (by omega)))
    simp [ht, hz]

/-- A `set_bits` write leaves every disjoint bit window unchanged. -/
theorem getBits_setBits_frame {data : List Nat} {o1 l1 v o2 l2 : Nat}
    (h32 : o1 + l1 ≤ 2 ^ 32)
    (hdisj : o2 + l2 ≤ o1 ∨ o1 + l1 ≤ o2) :
    getBits (setBits data o1 l1 v) o2 l2 = getBits data o2 l2 := by
  apply getBits_congr
  intro t ht
  rw [bitGet_setBits l1 o1 v (o2 + t) data h32, if_neg (by omega)]

/-- Bit-window disjointness of two distinct cells. -/
theorem cell_disjoint {w : Nat} {i j : Nat} (hne : j ≠ i) :
    j * w + w ≤ i * w ∨ i * w + w ≤ j * w := by
  rcases Nat.lt_or_ge j i with hj | hj
  · left
    calc j * w + w = (j + 1) * w := by ring
      _ ≤ i * w := Nat.mul_le_mul_right _ hj
  · right
    have hij : i < j := lt_of_le_of_ne hj (Ne.symm hne)
    calc i * w + w = (i + 1) * w := by ring
      _ ≤ j * w := Nat.mul_le_mul_right _ hij

/-- `set` followed by `get` of the same cell returns the clamped value,
provided the cell's bit offset fits in `u32` (so the source's truncating
cast is inert) and the cell lies inside the buffer. -/
theorem get_set_self (b : Buckets) (i v : Nat) (h1 : 1 ≤ b.bucket_size)
    (h8 : b.bucket_size ≤ 8) (hmax : b.max = 2 ^ b.bucket_size - 1)
    (h32 : i * b.bucket_size + b.bucket_size ≤ 2 ^ 32)
    (hlen : i * b.bucket_size + b.bucket_size ≤ 8 * b.data.length) :
    (b.set i v).get i = min v b.max := by
  have hv : min v b.max < 2 ^ b.bucket_size := by
    have : min v b.max ≤ b.max := Nat.min_le_right _ _
    have hp : 1 ≤ 2 ^ b.bucket_size := Nat.one_le_two_pow
    omega
  have hv8 : min v b.max < 256 := by
    have : (2 : Nat) ^ b.bucket_size ≤ 2 ^ 8 := Nat.pow_le_pow_right (by omega) h8
    omega
  simp only [Buckets.get, Buckets.set]
  rw [set_offset_eq h1 h32, getBits_setBits_self hlen h32 hv]
  exact Nat.mod_eq_of_lt hv8

/-- `set` leaves every other cell unchanged (any other index, even out of
range), provided the written cell's bit offset fits in `u32`. -/
theorem get_set_ne (b : Buckets) (i j v : Nat) (h1 : 1 ≤ b.bucket_size)
    (h32 : i * b.bucket_size + b.bucket_size ≤ 2 ^ 32) (hne : j ≠ i) :
    (b.set i v).get j = b.get j := by
  simp only [Buckets.get, Buckets.set]
  rw [set_offset_eq h1 h32, getBits_setBits_frame h32 (cell_disjoint hne)]

/-- `decrease` performs a saturating decrement of its cell, provided the
cell's bit offset fits in `u32` and the cell lies inside the buffer. -/
theorem get_decrease_self (b : Buckets) (i δ : Nat) (h1 : 1 ≤ b.bucket_size)
    (h8 : b.bucket_size ≤ 8)
    (h32 : i * b.bucket_size + b.bucket_size ≤ 2 ^ 32)
    (hlen : i * b.bucket_size + b.bucket_size ≤ 8 * b.data.length) :
    (b.decrease i δ).get i = b.get i - δ := by
  have hv : getBits b.data (i * b.bucket_size) b.bucket_size % 256 - δ <
      2 ^ b.bucket_size :=
    lt_of_le_of_lt (Nat.sub_le _ _) (get_lt b i)
  have hv8 : getBits b.data (i * b.bucket_size) b.bucket_size % 256 - δ < 256 := by
    have : (2 : Nat) ^ b.bucket_size ≤ 2 ^ 8 := Nat.pow_le_pow_right (by omega) h8
    omega
  simp only [Buckets.get, Buckets.decrease]
  rw [set_offset_eq h1 h32, getBits_setBits_self hlen h32 hv]
  exact Nat.mod_eq_of_lt hv8

/-- `decrease` leaves every other cell unchanged, provided the written
cell's bit offset fits in `u32`. -/
theorem get_decrease_ne (b : Buckets) (i j δ : Nat) (h1 : 1 ≤ b.bucket_size)
    (h32 : i * b.bucket_size + b.bucket_size ≤ 2 ^ 32) (hne : j ≠ i) :
    (b.decrease i δ).get j = b.get j := by
  simp only [Buckets.get, Buckets.decrease]
  rw [set_offset_eq h1 h32, getBits_setBits_frame h32 (cell_disjoint hne)]

/-! ### Structural facts: the mutating operations only touch `data`,
and preserve the buffer length -/

@[simp] theorem set_bucket_size (b : Buckets) (i v : Nat) :
    (b.set i v).bucket_size = b.bucket_size := rfl

@[simp] theorem set_max (b : Buckets) (i v : Nat) : (b.set i v).max = b.max := rfl

@[simp] theorem set_count (b : Buckets) (i v : Nat) : (b.set i v).count = b.count := rfl

@[simp] theorem set_data_length (b : Buckets) (i v : Nat) :
    (b.set i v).data.length = b.data.length := setBits_length _ _ _ _

@[simp] theorem decrease_bucket_size (b : Buckets) (i δ : Nat) :
    (b.decrease i δ).bucket_size = b.bucket_size := rfl

@[simp] theorem decrease_max (b : Buckets) (i δ : Nat) :
    (b.decrease i δ).max = b.max := rfl

@[simp] theorem decrease_count (b : Buckets) (i δ : Nat) :
    (b.decrease i δ).count = b.count := rfl

@[simp] theorem decrease_data_length (b : Buckets) (i δ : Nat) :
    (b.decrease i δ).data.length = b.data.length := setBits_length _ _ _ _

@[simp] theorem decrement_k (s : StableBloomFilter) (r : Nat) :
    (s.decrement r).k = s.k := rfl

@[simp] theorem decrement_m (s : StableBloomFilter) (r : Nat) :
    (s.decrement r).m = s.m := rfl

@[simp] theorem decrement_p (s : StableBloomFilter) (r : Nat) :
    (s.decrement r).p = s.p := rfl

@[simp] theorem decrement_max_field (s : StableBloomFilter) (r : Nat) :
    (s.decrement r).max = s.max := rfl

@[simp] theorem add_k (s : StableBloomFilter) (h r : Nat) :
    (s.add h r).k = s.k := rfl

@[simp] theorem add_m (s : StableBloomFilter) (h r : Nat) :
    (s.add h r).m = s.m := rfl

/-- Equational form of the cell updates performed by `add`. -/
theorem add_cells (s : StableBloomFilter) (h r : Nat) :
    (s.add h r).cells =
      (List.range s.k).foldl (fun c i => c.set (slotIndex h s.m i) s.max)
        (s.decrement r).cells := rfl

/-- Equational form of the cell updates performed by `decrement`. -/
theorem decrement_cells (s : StableBloomFilter) (r : Nat) :
    (s.decrement r).cells =
      (List.range s.p).foldl (fun c i => c.decrease ((r + i) % s.m) 1)
        s.cells := rfl

/-- The eviction loop only rewrites cell contents: field parameters and
buffer length are unchanged. -/
theorem decrement_cells_fields (s : StableBloomFilter) (r : Nat) :
    (s.decrement r).cells.bucket_size = s.cells.bucket_size ∧
      (s.decrement r).cells.max = s.cells.max ∧
      (s.decrement r).cells.count = s.cells.count ∧
      (s.decrement r).cells.data.length = s.cells.data.length := by
  suffices hgen : ∀ (L : List Nat) (c : Buckets),
      ((L.foldl (fun c i => c.decrease ((r + i) % s.m) 1) c).bucket_size =
          c.bucket_size ∧
        (L.foldl (fun c i => c.decrease ((r + i) % s.m) 1) c).max = c.max ∧
        (L.foldl (fun c i => c.decrease ((r + i) % s.m) 1) c).count = c.count ∧
        (L.foldl (fun c i => c.decrease ((r + i) % s.m) 1) c).data.length =
          c.data.length) by
    exact hgen (List.range s.p) s.cells
  intro L
  induction L with
  | nil => intro c; exact ⟨rfl, rfl, rfl, rfl⟩
  | cons a L ih =>
    intro c
    simp only [List.foldl_cons]
    obtain ⟨e1, e2, e3, e4⟩ := ih (c.decrease ((r + a) % s.m) 1)
    exact ⟨e1, e2, e3, e4.trans (setBits_length _ _ _ _)⟩


/-! Equational forms of the `Buckets` operations, proved by `rfl` at
symbolic arguments.  Rewriting with them (rather than unfolding by
definitional equality at concrete arguments) keeps large buffers such as
the 512 MiB counterexample buffer from ever being evaluated. -/

theorem get_eq (b : Buckets) (i : Nat) :
    b.get i = getBits b.data (i * b.bucket_size) b.bucket_size % 256 := rfl

theorem set_data_eq (b : Buckets) (i v : Nat) :
    (b.set i v).data =
      setBits b.data (i % 2 ^ 32 * b.bucket_size % 2 ^ 32) b.bucket_size
        (min v b.max) := rfl

theorem new_data (count bs : Nat) :
    (Buckets.new count bs).data = List.replicate ((count * bs + 7) / 8) 0 := rfl

theorem new_bucket_size (count bs : Nat) :
    (Buckets.new count bs).bucket_size = bs := rfl

theorem new_max (count bs : Nat) :
    (Buckets.new count bs).max = ((1 <<< bs) - 1) % 256 := rfl

/-- Reading any window of the all-zero buffer gives zero. -/
theorem getBits_replicate (n offset length : Nat) :
    getBits (List.replicate n 0) offset length = 0 := by
  apply Nat.eq_of_testBit_eq
  intro i
  rw [testBit_getBits]
  simp [bitGet, byteGet_replicate, Nat.zero_testBit]

/-- C1 (amended): on a `Buckets` shaped as built by `new(count, bucket_size)`
with `bucket_size` in `[1,8]`, for every cell `i < count` whose bit window
fits in 32 bits and every value `v`: after `set(i, v)`, `get(i)` returns
`min v max` with `max = 2 ^ bucket_size - 1`, and every other cell `j ≠ i`
is unchanged — including cells whose bit range straddles a byte boundary,
for every byte-offset phase.  The 32-bit bound is forced by
`set_get_u32_truncation_cex`: `set` truncates its bit offset with an
`as u32` cast while `get` computes it in `usize`. -/
theorem claim_set_roundtrip_frame (b : Buckets) (i v : Nat)
    (h1 : 1 ≤ b.bucket_size) (h8 : b.bucket_size ≤ 8)
    (hmax : b.max = 2 ^ b.bucket_size - 1)
    (hlen : b.data.length = (b.count * b.bucket_size + 7) / 8)
    (hi : i < b.count)
    (h32 : i * b.bucket_size + b.bucket_size ≤ 2 ^ 32) :
    (b.set i v).get i = min v b.max ∧
      ∀ j, j ≠ i → (b.set i v).get j = b.get j := by
  have hmul : i * b.bucket_size + b.bucket_size ≤ b.count * b.bucket_size := by
    calc i * b.bucket_size + b.bucket_size = (i + 1) * b.bucket_size := by ring
      _ ≤ b.count * b.bucket_size := Nat.mul_le_mul_right _ hi
  have hinb : i * b.bucket_size + b.bucket_size ≤ 8 * b.data.length := by
    rw [hlen]; omega
  exact ⟨get_set_self b i v h1 h8 hmax h32 hinb,
    fun j hj => get_set_ne b i j v h1 h32 hj⟩

/-- Witness for `claim_set_roundtrip_frame` on a byte-straddling cell:
3-bit cell 2 occupies bits 6..8, spanning bytes 0 and 1. -/
theorem claim_set_roundtrip_frame_witness :
    ((Buckets.new 3 3).set 2 100).get 2 = min 100 (Buckets.new 3 3).max ∧
      ∀ j, j ≠ 2 → ((Buckets.new 3 3).set 2 100).get j = (Buckets.new 3 3).get j :=
  claim_set_roundtrip_frame (Buckets.new 3 3) 2 100 (by decide) (by decide)
    (by decide) (by decide) (by decide) (by decide)

/-- C1 counterexample: the claim as stated fails for cells whose bit
offset does not fit in 32 bits.  With `count = 2 ^ 32 + 1` one-bit cells
(a 512 MiB buffer), `set(2 ^ 32, 1)` truncates its bit offset to 0 and
writes cell 0, while `get(2 ^ 32)` reads the untruncated offset, so the
read returns 0 instead of `min 1 max = 1`. -/
theorem set_get_u32_truncation_cex :
    ((Buckets.new (2 ^ 32 + 1) 1).set (2 ^ 32) 1).get (2 ^ 32) = 0 ∧
      min 1 (Buckets.new (2 ^ 32 + 1) 1).max = 1 ∧
      ¬ (((Buckets.new (2 ^ 32 + 1) 1).set (2 ^ 32) 1).get (2 ^ 32) =
          min 1 (Buckets.new (2 ^ 32 + 1) 1).max) := by
  have hd : ((Buckets.new (2 ^ 32 + 1) 1).set (2 ^ 32) 1).data =
      setBits (List.replicate (((2 ^ 32 + 1) * 1 + 7) / 8) 0)
        (2 ^ 32 % 2 ^ 32 * 1 % 2 ^ 32) 1 (min 1 (((1 <<< 1) - 1) % 256)) := by
    rw [set_data_eq, new_bucket_size, new_max, new_data]
  have hbs : ((Buckets.new (2 ^ 32 + 1) 1).set (2 ^ 32) 1).bucket_size = 1 := by
    rw [set_bucket_size, new_bucket_size]
  have e1 : (2 : Nat) ^ 32 % 2 ^ 32 * 1 % 2 ^ 32 = 0 := by norm_num
  have hget : ((Buckets.new (2 ^ 32 + 1) 1).set (2 ^ 32) 1).get (2 ^ 32) = 0 := by
    rw [get_eq, hd, hbs, e1,
      getBits_setBits_frame (by norm_num) (Or.inr (by norm_num)),
      getBits_replicate]
  have hmin : min 1 (Buckets.new (2 ^ 32 + 1) 1).max = 1 := by
    rw [new_max]
    decide
  refine ⟨hget, hmin, ?_⟩
  rw [hget, hmin]
  decide

/-- C2: with `bucket_size` in `[1,8]` the invariant "every cell's stored
value is in `[0, 2 ^ bucket_size - 1]`" holds after `new` and `reset` and
is preserved by every `set`, `increment` and `decrease`, regardless of
delta magnitude or call count (reads mask to `bucket_size` bits and every
write stores a clamped / saturated value, so the bound holds in every
reachable state). -/
theorem claim_cell_value_invariant (b : Buckets) (count i v δ j : Nat)
    (h1 : 1 ≤ b.bucket_size) (h8 : b.bucket_size ≤ 8) :
    (Buckets.new count b.bucket_size).get i ≤ 2 ^ b.bucket_size - 1 ∧
      b.reset.get i ≤ 2 ^ b.bucket_size - 1 ∧
      (b.set i v).get j ≤ 2 ^ b.bucket_size - 1 ∧
      (b.increment i δ).get j ≤ 2 ^ b.bucket_size - 1 ∧
      (b.decrease i δ).get j ≤ 2 ^ b.bucket_size - 1 := by
  have key : ∀ c : Buckets, c.bucket_size = b.bucket_size →
      ∀ t, c.get t ≤ 2 ^ b.bucket_size - 1 := by
    intro c hc t
    have h := get_lt c t
    rw [hc] at h
    have hp : 1 ≤ 2 ^ b.bucket_size := Nat.one_le_two_pow
    omega
  exact ⟨key (Buckets.new count b.bucket_size) rfl i, key b.reset rfl i,
    key (b.set i v) rfl j, key (b.increment i δ) rfl j, key (b.decrease i δ) rfl j⟩

/-- Witness for `claim_cell_value_invariant` at `bucket_size = 3`. -/
theorem claim_cell_value_invariant_witness :
    (Buckets.new 2 (Buckets.new 5 3).bucket_size).get 0 ≤
        2 ^ (Buckets.new 5 3).bucket_size - 1 ∧
      (Buckets.new 5 3).reset.get 0 ≤ 2 ^ (Buckets.new 5 3).bucket_size - 1 ∧
      ((Buckets.new 5 3).set 0 100).get 1 ≤ 2 ^ (Buckets.new 5 3).bucket_size - 1 ∧
      ((Buckets.new 5 3).increment 0 255).get 1 ≤
        2 ^ (Buckets.new 5 3).bucket_size - 1 ∧
      ((Buckets.new 5 3).decrease 0 255).get 1 ≤
        2 ^ (Buckets.new 5 3).bucket_size - 1 :=
  claim_cell_value_invariant (Buckets.new 5 3) 2 0 100 255 1 (by decide) (by decide)

/-- C9: construction fails exactly when the requested `bucket_size`
exceeds 8 — both at the `Buckets::new` level (`Buckets.new?`) and at the
filter-constructor level (`StableBloomFilter.new?`), whose only failure
path is that very `Buckets::new(m, d)` call — and the per-element
operations are total functions of this embedding that clamp out-of-range
values rather than rejecting them: `set i v` coincides with
`set i (min v max)`. -/
theorem claim_construction_failure_totality :
    (∀ count bucket_size : Nat,
        (Buckets.new? count bucket_size).isSome ↔ bucket_size ≤ 8) ∧
    (∀ m d kOpt pRaw : Nat,
        (StableBloomFilter.new? m d kOpt pRaw).isSome ↔ d ≤ 8) ∧
    (∀ (b : Buckets) (i v : Nat), b.set i v = b.set i (min v b.max)) := by
  refine ⟨?_, ?_, ?_⟩
  · intro count bucket_size
    unfold Buckets.new?
    split
    · simp; omega
    · simp; omega
  · intro m d kOpt pRaw
    unfold StableBloomFilter.new?
    split
    · simp; omega
    · simp; omega
  · intro b i v
    simp only [Buckets.set]
    rw [min_assoc, min_self]

/-- `get_bits` only touches in-bounds byte indices when the requested
window lies inside the buffer. -/
theorem getBitsOk_of_le : ∀ (length offset : Nat) (data : List Nat),
    1 ≤ length → offset + length ≤ 8 * data.length →
    getBitsOk data offset length = true := by
  intro length
  induction length using Nat.strong_induction_on with
  | _ length ih =>
    intro offset data h1 hle
    unfold getBitsOk
    split
    case isTrue hs =>
      rw [Bool.and_eq_true]
      exact ⟨ih _ (by omega) _ _ (by omega) (by omega),
        ih _ (by omega) _ _ (by omega) (by omega)⟩
    case isFalse hs =>
      simp only [decide_eq_true_eq]
      omega

/-- `set_bits` only touches in-bounds byte indices when the window lies
inside the buffer and its wrapping u32 offset addition is inert. -/
theorem setBitsOk_of_le : ∀ (length offset : Nat) (data : List Nat),
    1 ≤ length → offset + length ≤ 2 ^ 32 → offset + length ≤ 8 * data.length →
    setBitsOk data offset length = true := by
  intro length
  induction length using Nat.strong_induction_on with
  | _ length ih =>
    intro offset data h1 h32 hle
    unfold setBitsOk
    split
    case isTrue hs =>
      have hmod : (offset + (8 - offset % 8)) % 2 ^ 32 = offset + (8 - offset % 8) :=
        Nat.mod_eq_of_lt (by omega)
      rw [hmod, Bool.and_eq_true]
      exact ⟨ih _ (by omega) _ _ (by omega) (by omega) (by omega),
        ih _ (by omega) _ _ (by omega) (by omega) (by omega)⟩
    case isFalse hs =>
      simp only [decide_eq_true_eq]
      omega

/-- `set_bits` stays in bounds even when handed a u32-truncated offset in
the top eight positions below `2 ^ 32` (where its recursion wraps to
byte 0), provided the buffer spans past bit `2 ^ 32`. -/
theorem setBitsOk_hi (data : List Nat) (offset length : Nat)
    (h1 : 1 ≤ length) (h8 : length ≤ 8)
    (hoff : 2 ^ 32 - 8 ≤ offset) (hoff2 : offset < 2 ^ 32)
    (hlen : 2 ^ 29 + 1 ≤ data.length) :
    setBitsOk data offset length = true := by
  unfold setBitsOk
  split
  case isTrue hs =>
    rw [Bool.and_eq_true]
    constructor
    · unfold setBitsOk
      rw [if_neg (by omega)]
      simp only [decide_eq_true_eq]
      omega
    · have he : (offset + (8 - offset % 8)) % 2 ^ 32 = 0 := by omega
      rw [he]
      unfold setBitsOk
      rw [if_neg (by omega)]
      simp only [decide_eq_true_eq]
      omega
  case isFalse hs =>
    simp only [decide_eq_true_eq]
    omega

/-- C10: for a buffer of the length `new(count, bucket_size)` allocates,
with `bucket_size` in `[1,8]` and `i < count`, every byte index accessed
by `get(i)` (via `get_bits`) and by `set(i, v)` (via `set_bits` at the
u32-truncated offset) is strictly below the buffer length
`ceil(count * bucket_size / 8)`, so the Rust indexing cannot panic.
Termination of the byte-boundary split recursion is witnessed by
`getBits`/`setBits`/`getBitsOk`/`setBitsOk` being accepted on the
strictly decreasing `length` measure. -/
theorem claim_access_in_bounds (count bs i : Nat) (data : List Nat)
    (h1 : 1 ≤ bs) (h8 : bs ≤ 8) (hi : i < count)
    (hlen : data.length = (count * bs + 7) / 8) :
    getBitsOk data (i * bs) bs = true ∧
      setBitsOk data (i % 2 ^ 32 * bs % 2 ^ 32) bs = true := by
  have hmul : i * bs + bs ≤ count * bs := by
    calc i * bs + bs = (i + 1) * bs := by ring
      _ ≤ count * bs := Nat.mul_le_mul_right _ hi
  refine ⟨getBitsOk_of_le bs (i * bs) data h1 (by omega), ?_⟩
  rcases le_or_lt (count * bs) (2 ^ 32) with hc | hc
  · have heq : i % 2 ^ 32 * bs % 2 ^ 32 = i * bs := by
      have hle : i ≤ i * bs := Nat.le_mul_of_pos_right i (by omega)
      have hq : i % 2 ^ 32 = i := Nat.mod_eq_of_lt (by omega)
      rw [hq]
      exact Nat.mod_eq_of_lt (by omega)
    rw [heq]
    exact setBitsOk_of_le bs (i * bs) data h1 (by omega) (by omega)
  · have hlen2 : 2 ^ 29 + 1 ≤ data.length := by omega
    have hofflt : i % 2 ^ 32 * bs % 2 ^ 32 < 2 ^ 32 := Nat.mod_lt _ (by norm_num)
    rcases le_or_lt (i % 2 ^ 32 * bs % 2 ^ 32 + bs) (2 ^ 32) with hs | hs
    · exact setBitsOk_of_le bs _ data h1 hs (by omega)
    · exact setBitsOk_hi data _ bs h1 h8 (by omega) hofflt hlen2

/-- Witness for `claim_access_in_bounds` on a byte-straddling cell. -/
theorem claim_access_in_bounds_witness :
    getBitsOk (List.replicate 2 0) (2 * 3) 3 = true ∧
      setBitsOk (List.replicate 2 0) (2 % 2 ^ 32 * 3 % 2 ^ 32) 3 = true :=
  claim_access_in_bounds 3 3 2 (List.replicate 2 0) (by decide) (by decide)
    (by decide) (by decide)

/-! ### Claims C3, C4, C8 -/

/-- C3 (amended): when the `k` slot computations fit in `usize`
(`upper * (k - 1) + lower < 2 ^ 64`), `test(data)` is true exactly when
all `k` cells at `(lower + upper * i) mod m`, `i < k`, are non-zero,
where `lower` and `upper` are the low and high 32-bit halves of the
64-bit digest `h` (`h % 2^32` and `h / 2^32` truncated to u32); it is
false as soon as one of those cells is zero.  `test` is a pure function
of the state in this embedding, so it performs no mutation.  The
overflow bound is forced by `test_usize_wrap_cex`: the source computes
`lower as usize + upper as usize * i` in wrapping release-mode `usize`
arithmetic, so for huge `k` — reachable, since `new(m, d, 0.0)` clamps
the saturated `optimal_k(0.0)` down to `m` — the addressed cells differ
from the claim's formula. -/
theorem claim_test_iff_nonzero (s : StableBloomFilter) (h : Nat) (hm : 0 < s.m)
    (hfit : h / 2 ^ 32 % 2 ^ 32 * (s.k - 1) + h % 2 ^ 32 < 2 ^ 64) :
    s.test h = true ↔
      ∀ i, i < s.k →
        s.cells.get ((h % 2 ^ 32 + h / 2 ^ 32 % 2 ^ 32 * i) % s.m) ≠ 0 := by
  have hslot : ∀ i, i < s.k →
      slotIndex h s.m i = (h % 2 ^ 32 + h / 2 ^ 32 % 2 ^ 32 * i) % s.m := by
    intro i hi
    unfold slotIndex hashKernel
    dsimp only
    rw [Nat.shiftRight_eq_div_pow]
    have hmul : h / 2 ^ 32 % 2 ^ 32 * i ≤ h / 2 ^ 32 % 2 ^ 32 * (s.k - 1) :=
      Nat.mul_le_mul_left _ (by omega)
    have hlow : h % 2 ^ 32 < 2 ^ 32 := Nat.mod_lt _ (by norm_num)
    rw [Nat.mod_eq_of_lt (show h / 2 ^ 32 % 2 ^ 32 * i < 2 ^ 64 by omega),
      Nat.mod_eq_of_lt (show h % 2 ^ 32 + h / 2 ^ 32 % 2 ^ 32 * i < 2 ^ 64 by omega)]
  unfold StableBloomFilter.test
  simp only [List.all_eq_true, List.mem_range, bne_iff_ne, ne_eq]
  exact forall_congr' fun i => imp_congr_right fun hi => by rw [hslot i hi]

/-- Witness for `claim_test_iff_nonzero` on a concrete fresh filter. -/
theorem claim_test_iff_nonzero_witness :
    (StableBloomFilter.new 8 1 4 3).test 12345 = true ↔
      ∀ i, i < (StableBloomFilter.new 8 1 4 3).k →
        (StableBloomFilter.new 8 1 4 3).cells.get
          ((12345 % 2 ^ 32 + 12345 / 2 ^ 32 % 2 ^ 32 * i) %
            (StableBloomFilter.new 8 1 4 3).m) ≠ 0 :=
  claim_test_iff_nonzero (StableBloomFilter.new 8 1 4 3) 12345 (by decide)
    (by decide)

/-- Reading a byte of an untouched `replicate` buffer inside its length. -/
theorem byteGet_replicate_of_lt {n i : Nat} (a : Nat) (h : i < n) :
    byteGet (List.replicate n a) i = a := by
  simp [byteGet, List.getD_eq_getElem?_getD, List.getElem?_replicate, h]

/-- A one-bit cell reads back exactly its bit. -/
theorem get_one_bit (b : Buckets) (w : Nat) (hbs : b.bucket_size = 1) :
    b.get w = if bitGet b.data w then 1 else 0 := by
  rw [get_eq, hbs, mul_one]
  have hlt : getBits b.data w 1 < 2 ^ 1 := getBits_lt _ _ _
  have ht0 : Nat.testBit (getBits b.data w 1) 0 = bitGet b.data w := by
    rw [testBit_getBits]
    simp
  have hcases : getBits b.data w 1 = 0 ∨ getBits b.data w 1 = 1 := by omega
  rcases hcases with h0 | h1
  · rw [h0] at ht0 ⊢
    rw [← ht0]
    decide
  · rw [h1] at ht0 ⊢
    rw [← ht0]
    decide

/-- A filter state with `m = k = 2 ^ 33 + 1` one-bit cells — the shape
`new(2 ^ 33 + 1, 1, 0.0)` produces, since the saturated `optimal_k(0.0)`
is clamped down to `m` — whose cells are all 1 except cell `6442450945`,
which is `2 ^ 64 mod m`: byte `805306368` of the buffer has bit 1
cleared. -/
def wrapFilter : StableBloomFilter :=
  { cells :=
      { data := (List.replicate (2 ^ 30 + 1) 255).set 805306368 253
        bucket_size := 1
        max := 1
        count := 2 ^ 33 + 1 }
    m := 2 ^ 33 + 1
    p := 0
    k := 2 ^ 33 + 1
    max := 1 }

/-- Every bit of `wrapFilter`'s buffer below `2 ^ 33 + 1` is set, except
bit `6442450945`. -/
theorem wrapFilter_bit_ne {w : Nat} (hw : w < 2 ^ 33 + 1) (hz : w ≠ 6442450945) :
    bitGet ((List.replicate (2 ^ 30 + 1) 255).set 805306368 253) w = true := by
  unfold bitGet
  by_cases hb : w / 8 = 805306368
  · rw [hb, byteGet_set_self (by rw [List.length_replicate]; norm_num)]
    have h8 : w % 8 = 0 ∨ w % 8 = 2 ∨ w % 8 = 3 ∨ w % 8 = 4 ∨ w % 8 = 5 ∨
        w % 8 = 6 ∨ w % 8 = 7 := by omega
    rcases h8 with h | h | h | h | h | h | h <;> rw [h] <;> decide
  · rw [byteGet_set_ne (fun hq => hb hq.symm),
      byteGet_replicate_of_lt 255 (show w / 8 < 2 ^ 30 + 1 by omega),
      show (255 : Nat) = 2 ^ 8 - 1 from rfl, Nat.testBit_two_pow_sub_one]
    have h8 : w % 8 < 8 := by omega
    simp [h8]

/-- Bit `6442450945` of `wrapFilter`'s buffer is clear. -/
theorem wrapFilter_bit_z :
    bitGet ((List.replicate (2 ^ 30 + 1) 255).set 805306368 253) 6442450945 =
      false := by
  unfold bitGet
  rw [show (6442450945 : Nat) / 8 = 805306368 from by norm_num,
    show (6442450945 : Nat) % 8 = 1 from by norm_num,
    byteGet_set_self (by rw [List.length_replicate]; norm_num)]
  decide

/-- Every cell of `wrapFilter` other than `6442450945` holds 1. -/
theorem wrapFilter_get_ne {w : Nat} (hw : w < 2 ^ 33 + 1)
    (hz : w ≠ 6442450945) : wrapFilter.cells.get w = 1 := by
  rw [get_one_bit wrapFilter.cells w rfl,
    show wrapFilter.cells.data =
      (List.replicate (2 ^ 30 + 1) 255).set 805306368 253 from rfl,
    wrapFilter_bit_ne hw hz]
  decide

/-- Cell `6442450945` of `wrapFilter` holds 0. -/
theorem wrapFilter_get_z : wrapFilter.cells.get 6442450945 = 0 := by
  rw [get_one_bit wrapFilter.cells _ rfl,
    show wrapFilter.cells.data =
      (List.replicate (2 ^ 30 + 1) 255).set 805306368 253 from rfl,
    wrapFilter_bit_z]
  decide

/-- With digest `2 ^ 63` the wrapped slot of index `x` only depends on
`x mod 2 ^ 33`: `upper = 2 ^ 31`, and `2 ^ 31 * x` wraps modulo
`2 ^ 64`. -/
theorem wrapFilter_slot (x : Nat) :
    slotIndex (2 ^ 63) (2 ^ 33 + 1) x =
      2 ^ 31 * (x % 2 ^ 33) % (2 ^ 33 + 1) := by
  unfold slotIndex hashKernel
  dsimp only
  rw [Nat.shiftRight_eq_div_pow,
    show (2 : Nat) ^ 63 % 2 ^ 32 = 0 from by norm_num,
    show (2 : Nat) ^ 63 / 2 ^ 32 % 2 ^ 32 = 2 ^ 31 from by norm_num,
    Nat.zero_add, Nat.mod_mod_of_dvd _ dvd_rfl]
  have e3 : 2 ^ 31 * x % 2 ^ 64 = 2 ^ 31 * (x % 2 ^ 33) := by
    conv_lhs =>
      rw [show x = 2 ^ 33 * (x / 2 ^ 33) + x % 2 ^ 33 from
        (Nat.div_add_mod x (2 ^ 33)).symm]
    rw [Nat.mul_add,
      show (2 : Nat) ^ 31 * (2 ^ 33 * (x / 2 ^ 33)) = 2 ^ 64 * (x / 2 ^ 33)
        from by ring,
      Nat.add_comm, Nat.add_mul_mod_self_left]
    have hr : x % 2 ^ 33 < 2 ^ 33 := Nat.mod_lt _ (by norm_num)
    exact Nat.mod_eq_of_lt (by
      calc 2 ^ 31 * (x % 2 ^ 33) < 2 ^ 31 * 2 ^ 33 :=
            Nat.mul_lt_mul_of_pos_left hr (by norm_num)
        _ = 2 ^ 64 := by norm_num)
  rw [e3]

/-- No wrapped slot of digest `2 ^ 63` ever addresses cell `6442450945`:
`2 ^ 31 * j ≡ -2 ^ 31 (mod 2 ^ 33 + 1)` has no solution `j < 2 ^ 33`. -/
theorem wrapFilter_slot_ne (x : Nat) :
    2 ^ 31 * (x % 2 ^ 33) % (2 ^ 33 + 1) ≠ 6442450945 := by
  intro heq
  have hj : x % 2 ^ 33 < 2 ^ 33 := Nat.mod_lt _ (by norm_num)
  omega

/-- `test` on `wrapFilter` with digest `2 ^ 63` returns true: the
wrapped slots miss the single zero cell. -/
theorem wrapFilter_test : wrapFilter.test (2 ^ 63) = true := by
  unfold StableBloomFilter.test
  rw [show wrapFilter.k = 2 ^ 33 + 1 from rfl,
    show wrapFilter.m = 2 ^ 33 + 1 from rfl, List.all_eq_true]
  intro x hx
  show (wrapFilter.cells.get (slotIndex (2 ^ 63) (2 ^ 33 + 1) x) != 0) = true
  rw [wrapFilter_slot x,
    wrapFilter_get_ne (Nat.mod_lt _ (by norm_num)) (wrapFilter_slot_ne x)]
  decide

/-- C3 counterexample: with digest `2 ^ 63` (`lower = 0`,
`upper = 2 ^ 31`) and `k = m = 2 ^ 33 + 1`, the slot the claim's formula
assigns to `i = 2 ^ 33` is `2 ^ 64 mod m = 6442450945` — the one zero
cell — but the code computes `upper as usize * i` in wrapping `usize`
arithmetic, where `2 ^ 31 * 2 ^ 33 = 2 ^ 64` wraps to 0, and no wrapped
slot ever addresses that cell: `test` returns true while the claim's
right-hand side is false, so the claimed equivalence fails. -/
theorem test_usize_wrap_cex :
    wrapFilter.test (2 ^ 63) = true ∧
      wrapFilter.cells.get
          ((2 ^ 63 % 2 ^ 32 + 2 ^ 63 / 2 ^ 32 % 2 ^ 32 * 2 ^ 33) %
            wrapFilter.m) = 0 ∧
      2 ^ 33 < wrapFilter.k ∧
      ¬ (wrapFilter.test (2 ^ 63) = true ↔
          ∀ i, i < wrapFilter.k →
            wrapFilter.cells.get
              ((2 ^ 63 % 2 ^ 32 + 2 ^ 63 / 2 ^ 32 % 2 ^ 32 * i) %
                wrapFilter.m) ≠ 0) := by
  have hm : wrapFilter.m = 2 ^ 33 + 1 := rfl
  have hk : wrapFilter.k = 2 ^ 33 + 1 := rfl
  have hmath : (2 ^ 63 % 2 ^ 32 + 2 ^ 63 / 2 ^ 32 % 2 ^ 32 * 2 ^ 33) %
      (2 ^ 33 + 1) = 6442450945 := by norm_num
  refine ⟨wrapFilter_test, ?_, ?_, ?_⟩
  · rw [hm, hmath]
    exact wrapFilter_get_z
  · rw [hk]
    norm_num
  · intro hiff
    have hall := hiff.mp wrapFilter_test
    have hz := hall (2 ^ 33) (by rw [hk]; norm_num)
    rw [hm, hmath] at hz
    exact hz wrapFilter_get_z

/-- A loop that forces a flag to `false` at every index failing a check
computes the conjunction of the checks. -/
theorem foldl_member_eq_all (L : List Nat) (q : Nat → Bool) (b : Bool) :
    L.foldl (fun mem i => if q i then false else mem) b =
      (b && L.all fun i => !q i) := by
  induction L generalizing b with
  | nil => simp
  | cons a L ih =>
    simp only [List.foldl_cons, List.all_cons, ih]
    cases hq : q a <;> simp [hq]

/-- C4: `test_and_add(data)` returns exactly what `test(data)` returns on
the pre-state (true iff all k slots were non-zero before any mutation of
this call), and the state it leaves behind is exactly the state `add(data)`
produces from the same pre-state with the same eviction offset `r`:
`decrement` on the pre-state, then all k slots set to `max`. -/
theorem claim_testAndAdd_refines_test_add (s : StableBloomFilter) (h r : Nat)
    (hr : r < s.m) :
    s.testAndAdd h r = (s.test h, s.add h r) := by
  unfold StableBloomFilter.testAndAdd StableBloomFilter.add StableBloomFilter.test
  dsimp only
  rw [List.foldl_map, foldl_member_eq_all, Bool.true_and]
  rfl

/-- Witness for `claim_testAndAdd_refines_test_add` on a concrete filter. -/
theorem claim_testAndAdd_refines_test_add_witness :
    (StableBloomFilter.new 8 2 4 3).testAndAdd 98765 5 =
      ((StableBloomFilter.new 8 2 4 3).test 98765,
        (StableBloomFilter.new 8 2 4 3).add 98765 5) :=
  claim_testAndAdd_refines_test_add (StableBloomFilter.new 8 2 4 3) 98765 5
    (by decide)

/-- C8: for `m ≥ 1`, the general constructor yields
`k = max(1, min(optimal_k(fp_rate) / 2, m))` (`kOpt` abstracting the
float-valued `optimal_k(fp_rate)`), and `p = optimal_stable_p(...)`,
which the final clamp of `optimal_stable_p` keeps at 1 or more. -/
theorem claim_new_parameters (m d kOpt pRaw : Nat) (hm : 1 ≤ m) :
    (StableBloomFilter.new m d kOpt pRaw).k = max 1 (min (kOpt / 2) m) ∧
      (StableBloomFilter.new m d kOpt pRaw).p = optimalStableP pRaw ∧
      1 ≤ optimalStableP pRaw := by
  refine ⟨?_, rfl, ?_⟩
  · show (if m < kOpt / 2 then m else if kOpt / 2 = 0 then 1 else kOpt / 2) =
      max 1 (min (kOpt / 2) m)
    split
    · omega
    · split <;> omega
  · unfold optimalStableP
    split <;> omega

/-- Witness for `claim_new_parameters`: the configuration of the crate's
`test_k` unit test (`m = 100`, `optimal_k(0.01) = 7`). -/
theorem claim_new_parameters_witness :
    (StableBloomFilter.new 100 1 7 0).k = max 1 (min (7 / 2) 100) ∧
      (StableBloomFilter.new 100 1 7 0).p = optimalStableP 0 ∧
      1 ≤ optimalStableP 0 :=
  claim_new_parameters 100 1 7 0 (by decide)

/-! ### Claims C5 and C6 -/

/-- Effect of a fold of unit `decrease` operations on one cell: the cell
loses one per occurrence of its index in the list (saturating at zero),
and cells not listed keep their value. -/
theorem get_foldl_decrease :
    ∀ (L : List Nat) (c : Buckets), 1 ≤ c.bucket_size → c.bucket_size ≤ 8 →
      (∀ idx ∈ L, idx * c.bucket_size + c.bucket_size ≤ 2 ^ 32 ∧
        idx * c.bucket_size + c.bucket_size ≤ 8 * c.data.length) →
      ∀ j, (L.foldl (fun c idx => c.decrease idx 1) c).get j =
        c.get j - L.count j := by
  intro L
  induction L with
  | nil => intro c _ _ _ j; simp
  | cons a L ih =>
    intro c h1 h8 hb j
    obtain ⟨ha32, halen⟩ := hb a (List.mem_cons_self a L)
    have hb2 : ∀ idx ∈ L,
        idx * (c.decrease a 1).bucket_size + (c.decrease a 1).bucket_size ≤ 2 ^ 32 ∧
        idx * (c.decrease a 1).bucket_size + (c.decrease a 1).bucket_size ≤
          8 * (c.decrease a 1).data.length := by
      intro idx hidx
      rw [decrease_bucket_size, decrease_data_length]
      exact hb idx (List.mem_cons_of_mem a hidx)
    simp only [List.foldl_cons]
    rw [ih (c.decrease a 1) h1 h8 hb2 j]
    by_cases hja : j = a
    · subst hja
      rw [get_decrease_self c j 1 h1 h8 ha32 halen]
      have hcnt : (j :: L).count j = L.count j + 1 := by simp [List.count_cons]
      rw [hcnt]
      omega
    · rw [get_decrease_ne c a j 1 h1 ha32 hja]
      have hcnt : (a :: L).count j = L.count j := by
        simp [List.count_cons, Ne.symm hja]
      rw [hcnt]

/-- Effect of the slot-setting loop of `add`/`test_and_add` on one cell:
every listed cell ends at `min w max`, all other cells keep their value. -/
theorem get_foldl_set (w : Nat) :
    ∀ (L : List Nat) (c : Buckets), 1 ≤ c.bucket_size → c.bucket_size ≤ 8 →
      c.max = 2 ^ c.bucket_size - 1 →
      (∀ idx ∈ L, idx * c.bucket_size + c.bucket_size ≤ 2 ^ 32 ∧
        idx * c.bucket_size + c.bucket_size ≤ 8 * c.data.length) →
      ∀ j, (L.foldl (fun c idx => c.set idx w) c).get j =
        if j ∈ L then min w c.max else c.get j := by
  intro L
  induction L with
  | nil => intro c _ _ _ _ j; simp
  | cons a L ih =>
    intro c h1 h8 hmax hb j
    obtain ⟨ha32, halen⟩ := hb a (List.mem_cons_self a L)
    have hb2 : ∀ idx ∈ L,
        idx * (c.set a w).bucket_size + (c.set a w).bucket_size ≤ 2 ^ 32 ∧
        idx * (c.set a w).bucket_size + (c.set a w).bucket_size ≤
          8 * (c.set a w).data.length := by
      intro idx hidx
      rw [set_bucket_size, set_data_length]
      exact hb idx (List.mem_cons_of_mem a hidx)
    simp only [List.foldl_cons]
    rw [ih (c.set a w) h1 h8 hmax hb2 j]
    simp only [set_max]
    by_cases hjL : j ∈ L
    · rw [if_pos hjL, if_pos (List.mem_cons_of_mem a hjL)]
    · by_cases hja : j = a
      · subst hja
        rw [if_neg hjL, if_pos (List.mem_cons_self j L),
          get_set_self c j w h1 h8 hmax ha32 halen]
      · rw [if_neg hjL, if_neg (by simp [hja, hjL]),
          get_set_ne c a j w h1 ha32 hja]

/-- When `p ≤ m`, the `p` eviction targets `(r + i) % m` are pairwise
distinct. -/
theorem decrement_slots_inj (m p r : Nat) (hp : p ≤ m) :
    ∀ i1, i1 < p → ∀ i2, i2 < p → (r + i1) % m = (r + i2) % m → i1 = i2 := by
  intro i1 hi1 i2 hi2 heq
  have hmod : i1 % m = i2 % m := Nat.ModEq.add_left_cancel' r heq
  rw [Nat.mod_eq_of_lt (by omega), Nat.mod_eq_of_lt (by omega)] at hmod
  exact hmod

/-- C6 (amended): for `p ≤ m` and cell windows below the u32 boundary
(`m * bucket_size ≤ 2 ^ 32`), one `decrement()` with start offset
`r < m` touches exactly the `p` pairwise-distinct cells
`(r + i) % m`, `i < p`, decrementing each by one saturating at zero, and
leaves every other cell unchanged.  `p ≤ m` is forced by
`decrement_touches_cell_twice_cex` (the source clamps `p` only from
below, and with `p > m` a cell is decremented more than once); the u32
bound is forced by the same offset truncation as in
`set_get_u32_truncation_cex`. -/
theorem claim_decrement_window (s : StableBloomFilter) (r : Nat)
    (h1 : 1 ≤ s.cells.bucket_size) (h8 : s.cells.bucket_size ≤ 8)
    (hm : 1 ≤ s.m) (hr : r < s.m) (hp : s.p ≤ s.m)
    (h32 : s.m * s.cells.bucket_size ≤ 2 ^ 32)
    (hlen : s.m * s.cells.bucket_size ≤ 8 * s.cells.data.length) :
    (∀ i1, i1 < s.p → ∀ i2, i2 < s.p →
        (r + i1) % s.m = (r + i2) % s.m → i1 = i2) ∧
      ∀ j, (s.decrement r).cells.get j =
        if ∃ i, i < s.p ∧ (r + i) % s.m = j
        then s.cells.get j - 1 else s.cells.get j := by
  refine ⟨decrement_slots_inj s.m s.p r hp, ?_⟩
  intro j
  have hfold : (s.decrement r).cells =
      ((List.range s.p).map fun i => (r + i) % s.m).foldl
        (fun c idx => c.decrease idx 1) s.cells := by
    unfold StableBloomFilter.decrement
    rw [List.foldl_map]
  have hbounds : ∀ idx ∈ (List.range s.p).map fun i => (r + i) % s.m,
      idx * s.cells.bucket_size + s.cells.bucket_size ≤ 2 ^ 32 ∧
      idx * s.cells.bucket_size + s.cells.bucket_size ≤
        8 * s.cells.data.length := by
    intro idx hidx
    have hidxm : idx < s.m := by
      rcases List.mem_map.mp hidx with ⟨i, _, hi⟩
      rw [← hi]
      exact Nat.mod_lt _ (by omega)
    have hstep : idx * s.cells.bucket_size + s.cells.bucket_size ≤
        s.m * s.cells.bucket_size := by
      calc idx * s.cells.bucket_size + s.cells.bucket_size
          = (idx + 1) * s.cells.bucket_size := by ring
        _ ≤ s.m * s.cells.bucket_size := Nat.mul_le_mul_right _ hidxm
    omega
  rw [hfold, get_foldl_decrease _ s.cells h1 h8 hbounds j]
  by_cases hex : ∃ i, i < s.p ∧ (r + i) % s.m = j
  · rw [if_pos hex]
    obtain ⟨i, hi, hij⟩ := hex
    have hmem : j ∈ (List.range s.p).map fun i => (r + i) % s.m :=
      List.mem_map.mpr ⟨i, List.mem_range.mpr hi, hij⟩
    have hnodup : ((List.range s.p).map fun i => (r + i) % s.m).Nodup :=
      List.Nodup.map_on
        (fun x hx y hy hxy =>
          decrement_slots_inj s.m s.p r hp x (List.mem_range.mp hx) y
            (List.mem_range.mp hy) hxy)
        (List.nodup_range s.p)
    rw [List.count_eq_one_of_mem hnodup hmem]
  · have hnot : j ∉ (List.range s.p).map fun i => (r + i) % s.m := by
      intro hmem
      rcases List.mem_map.mp hmem with ⟨i, hiL, hij⟩
      exact hex ⟨i, List.mem_range.mp hiL, hij⟩
    rw [if_neg hex, List.count_eq_zero_of_not_mem hnot, Nat.sub_zero]

/-- Witness for `claim_decrement_window`: `m = 8` one-bit cells, `p = 2`,
start offset `r = 3`. -/
theorem claim_decrement_window_witness :
    (∀ i1, i1 < (StableBloomFilter.new 8 1 4 2).p →
        ∀ i2, i2 < (StableBloomFilter.new 8 1 4 2).p →
        (3 + i1) % (StableBloomFilter.new 8 1 4 2).m =
          (3 + i2) % (StableBloomFilter.new 8 1 4 2).m → i1 = i2) ∧
      ∀ j, ((StableBloomFilter.new 8 1 4 2).decrement 3).cells.get j =
        if ∃ i, i < (StableBloomFilter.new 8 1 4 2).p ∧
            (3 + i) % (StableBloomFilter.new 8 1 4 2).m = j
        then (StableBloomFilter.new 8 1 4 2).cells.get j - 1
        else (StableBloomFilter.new 8 1 4 2).cells.get j :=
  claim_decrement_window (StableBloomFilter.new 8 1 4 2) 3 (by decide) (by decide)
    (by decide) (by decide) (by decide) (by decide) (by decide)

/-- A filter state with `p = 2 > m = 1` (constructible: the source clamps
`p` from below only): a single 2-bit cell holding the value 2. -/
def pGtMFilter : StableBloomFilter :=
  { cells := { data := [2], bucket_size := 2, max := 3, count := 1 },
    m := 1, p := 2, k := 1, max := 3 }

/-- C6 counterexample: with `p = 2` and `m = 1`, one `decrement()` call
drops the single cell from 2 to 0 — the touched cell is decremented by
two, not "by at most 1" as the claim states, because the `p` targets
`(r + i) % m` are not `p` distinct cells when `p > m`. -/
theorem decrement_touches_cell_twice_cex :
    pGtMFilter.cells.get 0 = 2 ∧
      (pGtMFilter.decrement 0).cells.get 0 = 0 := by
  have hc0 : pGtMFilter.cells = ⟨[2], 2, 3, 1⟩ := rfl
  have hget2 : ((⟨[2], 2, 3, 1⟩ : Buckets)).get 0 = 2 := by
    simp [Buckets.get, getBits, byteGet]
    decide
  have hdec1 : ((⟨[2], 2, 3, 1⟩ : Buckets)).decrease 0 1 = ⟨[1], 2, 3, 1⟩ := by
    simp [Buckets.decrease, getBits, setBits, byteGet]
    decide
  have hdec2 : ((⟨[1], 2, 3, 1⟩ : Buckets)).decrease 0 1 = ⟨[0], 2, 3, 1⟩ := by
    simp [Buckets.decrease, getBits, setBits, byteGet]
  have hget0 : ((⟨[0], 2, 3, 1⟩ : Buckets)).get 0 = 0 := by
    simp [Buckets.get, getBits, byteGet]
  have hcells : (pGtMFilter.decrement 0).cells =
      (((⟨[2], 2, 3, 1⟩ : Buckets)).decrease 0 1).decrease 0 1 := by
    rw [decrement_cells, show pGtMFilter.p = 2 from rfl,
      show pGtMFilter.m = 1 from rfl, hc0,
      show List.range 2 = [0, 1] from by decide]
    simp only [List.foldl_cons, List.foldl_nil]
  exact ⟨by rw [hc0, hget2], by rw [hcells, hdec1, hdec2, hget0]⟩

/-- C5 (amended): for any filter state with `bucket_size = d` in `[1,8]`
(so `max = 2 ^ d - 1 ≥ 1`), `m ≥ 1`, buffer covering the `m` cells, and
cell windows below the u32 boundary (`m * d ≤ 2 ^ 32`), `add(x)`
immediately followed by `test(x)` is true for every digest and every
eviction offset `r < m`: `add` runs `decrement` first and only then sets
all `k` slots to `max`, so the final loop makes every slot of `x`
non-zero.  The u32 bound is forced by
`add_then_test_u32_truncation_cex`. -/
theorem claim_add_then_test (s : StableBloomFilter) (h r : Nat)
    (h1 : 1 ≤ s.cells.bucket_size) (h8 : s.cells.bucket_size ≤ 8)
    (hmaxc : s.cells.max = 2 ^ s.cells.bucket_size - 1)
    (hmaxs : s.max = s.cells.max)
    (hm : 1 ≤ s.m) (hr : r < s.m)
    (h32 : s.m * s.cells.bucket_size ≤ 2 ^ 32)
    (hlen : s.m * s.cells.bucket_size ≤ 8 * s.cells.data.length) :
    (s.add h r).test h = true := by
  obtain ⟨f1, f2, f3, f4⟩ := decrement_cells_fields s r
  have hbounds : ∀ idx ∈ (List.range s.k).map fun i => slotIndex h s.m i,
      idx * (s.decrement r).cells.bucket_size +
          (s.decrement r).cells.bucket_size ≤ 2 ^ 32 ∧
      idx * (s.decrement r).cells.bucket_size +
          (s.decrement r).cells.bucket_size ≤
        8 * (s.decrement r).cells.data.length := by
    intro idx hidx
    rw [f1, f4]
    have hidxm : idx < s.m := by
      rcases List.mem_map.mp hidx with ⟨i, _, hi⟩
      rw [← hi]
      exact Nat.mod_lt _ (by omega)
    have hstep : idx * s.cells.bucket_size + s.cells.bucket_size ≤
        s.m * s.cells.bucket_size := by
      calc idx * s.cells.bucket_size + s.cells.bucket_size
          = (idx + 1) * s.cells.bucket_size := by ring
        _ ≤ s.m * s.cells.bucket_size := Nat.mul_le_mul_right _ hidxm
    omega
  unfold StableBloomFilter.add StableBloomFilter.test
  dsimp only
  simp only [decrement_k, decrement_m, decrement_max_field]
  rw [List.all_eq_true]
  intro x hx
  rw [List.mem_range] at hx
  have hfold : (List.range s.k).foldl
      (fun c i => c.set (slotIndex h s.m i) s.max) (s.decrement r).cells =
      ((List.range s.k).map fun i => slotIndex h s.m i).foldl
        (fun c idx => c.set idx s.max) (s.decrement r).cells := by
    rw [List.foldl_map]
  rw [hfold,
    get_foldl_set s.max _ _ (by rw [f1]; exact h1) (by rw [f1]; exact h8)
      (by rw [f1, f2]; exact hmaxc) hbounds,
    if_pos (List.mem_map.mpr ⟨x, List.mem_range.mpr hx, rfl⟩), f2, hmaxs,
    min_self, hmaxc]
  simp only [bne_iff_ne, ne_eq]
  have h2 : 2 ≤ 2 ^ s.cells.bucket_size := by
    calc (2 : Nat) = 2 ^ 1 := rfl
      _ ≤ 2 ^ s.cells.bucket_size := Nat.pow_le_pow_right (by norm_num) h1
  omega

/-- Witness for `claim_add_then_test`: a fresh 8-cell one-bit filter. -/
theorem claim_add_then_test_witness :
    ((StableBloomFilter.new 8 1 4 2).add 999 3).test 999 = true :=
  claim_add_then_test (StableBloomFilter.new 8 1 4 2) 999 3 (by decide) (by decide)
    (by decide) (by decide) (by decide) (by decide) (by decide) (by decide)

/-- A classical-variant filter over `2 ^ 32 + 1` one-bit cells: `p = 0`
(no eviction), `k = 2` hash slots. -/
def hugeFilter : StableBloomFilter :=
  { cells := Buckets.new (2 ^ 32 + 1) 1, m := 2 ^ 32 + 1, p := 0, k := 2,
    max := 1 }

/-- C5 counterexample: with `m = 2 ^ 32 + 1` one-bit cells and digest
`2 ^ 33 - 1` (lower half `2 ^ 32 - 1`, upper half 1), slot 1 is cell
`2 ^ 32`; `add` writes it through the u32-truncated bit offset 0 (cell 0)
while `test` reads the untruncated offset, so `add(x)` immediately
followed by `test(x)` returns false. -/
theorem add_then_test_u32_truncation_cex :
    (hugeFilter.add (2 ^ 33 - 1) 0).test (2 ^ 33 - 1) = false := by
  have hhk : hugeFilter.k = 2 := rfl
  have hhm : hugeFilter.m = 2 ^ 32 + 1 := rfl
  have hhp : hugeFilter.p = 0 := rfl
  have hhmax : hugeFilter.max = 1 := rfl
  have hhcells : hugeFilter.cells = Buckets.new (2 ^ 32 + 1) 1 := rfl
  have hslot0 : slotIndex (2 ^ 33 - 1) (2 ^ 32 + 1) 0 = 2 ^ 32 - 1 := by
    norm_num [slotIndex, hashKernel, Nat.shiftRight_eq_div_pow]
  have hslot1 : slotIndex (2 ^ 33 - 1) (2 ^ 32 + 1) 1 = 2 ^ 32 := by
    norm_num [slotIndex, hashKernel, Nat.shiftRight_eq_div_pow]
  have hcells : (hugeFilter.add (2 ^ 33 - 1) 0).cells =
      ((Buckets.new (2 ^ 32 + 1) 1).set (2 ^ 32 - 1) 1).set (2 ^ 32) 1 := by
    rw [add_cells, decrement_cells, hhk, hhm, hhp, hhmax, hhcells,
      show List.range 0 = ([] : List Nat) from rfl,
      show List.range 2 = [0, 1] from by decide]
    simp only [List.foldl_nil, List.foldl_cons]
    rw [hslot0, hslot1]
  have hd1 : ((Buckets.new (2 ^ 32 + 1) 1).set (2 ^ 32 - 1) 1).data =
      setBits (List.replicate (((2 ^ 32 + 1) * 1 + 7) / 8) 0)
        ((2 ^ 32 - 1) % 2 ^ 32 * 1 % 2 ^ 32) 1 (min 1 (((1 <<< 1) - 1) % 256)) := by
    rw [set_data_eq, new_bucket_size, new_max, new_data]
  have hbs1 : ((Buckets.new (2 ^ 32 + 1) 1).set (2 ^ 32 - 1) 1).bucket_size = 1 := by
    rw [set_bucket_size, new_bucket_size]
  have hmax1 : ((Buckets.new (2 ^ 32 + 1) 1).set (2 ^ 32 - 1) 1).max =
      ((1 <<< 1) - 1) % 256 := by
    rw [set_max, new_max]
  have hd2 : (((Buckets.new (2 ^ 32 + 1) 1).set (2 ^ 32 - 1) 1).set (2 ^ 32) 1).data =
      setBits
        (setBits (List.replicate (((2 ^ 32 + 1) * 1 + 7) / 8) 0)
          ((2 ^ 32 - 1) % 2 ^ 32 * 1 % 2 ^ 32) 1 (min 1 (((1 <<< 1) - 1) % 256)))
        (2 ^ 32 % 2 ^ 32 * 1 % 2 ^ 32) 1 (min 1 (((1 <<< 1) - 1) % 256)) := by
    rw [set_data_eq, hd1, hbs1, hmax1]
  have hbs2 :
      (((Buckets.new (2 ^ 32 + 1) 1).set (2 ^ 32 - 1) 1).set (2 ^ 32) 1).bucket_size =
        1 := by
    rw [set_bucket_size, hbs1]
  have e1 : ((2 : Nat) ^ 32 - 1) % 2 ^ 32 * 1 % 2 ^ 32 = 2 ^ 32 - 1 := by norm_num
  have e2 : (2 : Nat) ^ 32 % 2 ^ 32 * 1 % 2 ^ 32 = 0 := by norm_num
  have hget : ((((Buckets.new (2 ^ 32 + 1) 1).set (2 ^ 32 - 1) 1).set
      (2 ^ 32) 1)).get (2 ^ 32) = 0 := by
    rw [get_eq, hd2, hbs2, e1, e2,
      getBits_setBits_frame (by norm_num) (Or.inr (by norm_num)),
      getBits_setBits_frame (by norm_num) (Or.inr (by norm_num)),
      getBits_replicate]
  unfold StableBloomFilter.test
  rw [add_k, add_m, hhk, hhm, show List.range 2 = [0, 1] from by decide]
  simp only [List.all_cons, List.all_nil, Bool.and_true]
  rw [hslot1, hcells, hget]
  simp

end StableBloom
